import Mathlib

/-!
Verification of the argument-marshaling layer of `pywayland/message.py`.

The embedding below translates the Python source into Lean:

* `parseSignature` embeds the scanning behaviour of
  `re_arg = re.compile(r"(\??)([uifsonah])")` used with `finditer`/`findall`:
  the string is scanned left to right; at each position an optional `?`
  immediately followed by a kind letter yields a nullable argument, a bare
  kind letter yields a non-nullable argument, and any other character is
  skipped.
* `Message.make` embeds `Message.__init__` (the fields it stores; the cffi
  `wl_message` struct mirror is transport plumbing outside the model).
* `encodeLoop` / `encodeMsg` embed `Message.arguments_to_c`.
* `decodeFrom` / `decodeMsg` embed `Message.c_to_arguments`.

The dynamically typed Python values are embedded as the tagged union `Value`;
Python floats are embedded as rationals (every float64 is an exact rational,
and the fixed-point conversions only involve dyadic arithmetic).  Errors
raised by the Python code (bare `raise Exception`, `StopIteration` from an
exhausted iterator, cffi conversion errors, the cffi refusal to read a NULL
string) are embedded as `Except` error values.
-/

namespace PyWayland

/-- The argument kinds, one per signature letter `i u f s o n a h`. -/
inductive ArgKind where
  | int32
  | uint32
  | fixed
  | string
  | object
  | newId
  | array
  | fd
deriving DecidableEq, Repr

/-- One parsed signature token: kind letter plus nullable flag
(the flag is set when the letter was prefixed by `?`). -/
structure ArgSpec where
  nullable : Bool
  kind : ArgKind
deriving DecidableEq, Repr

/-- The kind letter map of `re_arg`: the character class `[uifsonah]`. -/
def kindOfChar (c : Char) : Option ArgKind :=
  if c = 'u' then some .uint32
  else if c = 'i' then some .int32
  else if c = 'f' then some .fixed
  else if c = 's' then some .string
  else if c = 'o' then some .object
  else if c = 'n' then some .newId
  else if c = 'a' then some .array
  else if c = 'h' then some .fd
  else none

/-- Inverse of `kindOfChar` on kind letters. -/
def kindChar : ArgKind → Char
  | .uint32 => 'u'
  | .int32 => 'i'
  | .fixed => 'f'
  | .string => 's'
  | .object => 'o'
  | .newId => 'n'
  | .array => 'a'
  | .fd => 'h'

/-- Left-to-right scan of a signature string, embedding
`re_arg.finditer(signature)` for `re_arg = (\??)([uifsonah])`:
a `?` is consumed together with a kind letter only when that letter
immediately follows it (regex backtracking otherwise drops the `?` and the
scan resumes at the next character); characters outside the class --
in particular version digits -- are skipped and produce nothing. -/
def scanArgs : List Char → List ArgSpec
  | [] => []
  | [c] =>
    match kindOfChar c with
    | some k => [⟨false, k⟩]
    | none => []
  | c :: d :: rest =>
    match kindOfChar c with
    | some k => ⟨false, k⟩ :: scanArgs (d :: rest)
    | none =>
      if c = '?' then
        match kindOfChar d with
        | some k => ⟨true, k⟩ :: scanArgs rest
        | none => scanArgs (d :: rest)
      else
        scanArgs (d :: rest)

/-- Parse a signature string into its argument descriptors. -/
def parseSignature (s : String) : List ArgSpec :=
  scanArgs s.toList

/-- A protocol object as the encoder sees it: its raw identity pointer
(`arg._ptr`, embedded as a numeric id) and the interface it actually
belongs to.  `arguments_to_c` only ever reads `_ptr`. -/
structure PObject where
  ptr : Nat
  actualInterface : Option String
deriving DecidableEq, Repr

/-- Tagged union of the dynamically typed Python values crossing the codec
boundary.  Floats are embedded as rationals. -/
inductive Value where
  | VNone
  | VInt (n : Int)
  | VFloat (q : ℚ)
  | VStr (s : String)
  | VObject (o : PObject)
  | VBytes (bs : List Nat)
deriving DecidableEq, Repr

/-- One `union wl_argument` slot.  `nullSlot` is the zero initialisation
produced by `ffi.new` for a slot that is never written (all union fields
read as zero / NULL there); the other constructors record which field was
last written and with what value.  A NULL pointer is `none`.  An `sVal`
records the Python string whose NUL-terminated UTF-8 encoding fills the
`char []` buffer the slot points to (the buffer itself is
`utf8(s) ++ [0]`; reading it back with `ffi.string` stops at the first
NUL byte, see `ffiString`). -/
inductive RawArg where
  | nullSlot
  | iVal (n : Int)
  | uVal (n : Nat)
  | fVal (n : Int)
  | hVal (n : Int)
  | sVal (s : Option String)
  | oVal (p : Option Nat)
deriving DecidableEq, Repr

/-- One entry of the `refs` keep-alive list built by `arguments_to_c`
(stored in `weakkeydict` keyed on the raw array): encoded string buffers
and cast object pointers.  (The `a` branch would also append its
`wl_array` and data buffer, but it raises before reaching those appends,
so no other entry kind is reachable.) -/
inductive OwnedRef where
  | strBuf (s : String)
  | objRef (p : Nat)
deriving DecidableEq, Repr

/-- Errors the encoding path can raise.  The Python code raises a bare
`Exception` where the spec taxonomy says `NullNotAllowed`; `overflow`
and `typeError` are the cffi errors `OverflowError`/`TypeError` on a field
assignment or a `len()` of an unsized value; `valueError` is the
`ValueError` cffi raises for `ffi.new` with the array-of-void type
(items of unknown size); `stopIteration` is the uncaught `StopIteration`
from `next(arg_iter)` on an exhausted argument iterator. -/
inductive EncErr where
  | nullNotAllowed
  | overflow
  | typeError
  | valueError
  | stopIteration
deriving DecidableEq, Repr

/-- Errors the decoding path can raise.  `nullPointerRead` is the cffi
runtime error from `ffi.string` on a NULL `char *`; `indexOutOfRange`
models reading a raw slot past the end of the supplied array;
`typePun` marks a union field read that does not match the field last
written (behaviour outside the embedding, never exercised below). -/
inductive DecErr where
  | nullPointerRead
  | indexOutOfRange
  | typePun
deriving DecidableEq, Repr

/-- Embeds the Python method `str.strip(c)`: remove every leading and trailing
occurrence of the character `c`. -/
def pyStrip (c : Char) (s : String) : String :=
  ⟨(((s.toList.dropWhile (· = c)).reverse.dropWhile (· = c)).reverse)⟩

/-- The fields `Message.__init__` stores on the instance.  `types` is the
per-slot interface table (`None` entries embedded as `none`). -/
structure Message where
  name : String
  signature : String
  types : List (Option String)
deriving DecidableEq, Repr

/-- Embeds `Message.__init__(func, signature, types)`: the public name is
`func.__name__.strip('_')`; the signature string and type list are stored
unchanged. -/
def Message.make (funcName : String) (signature : String)
    (types : List (Option String)) : Message :=
  { name := pyStrip '_' funcName, signature := signature, types := types }

/-- Reduce an integer into the signed 32-bit range by wrapping. -/
def wrap32 (n : Int) : Int :=
  (n + 2 ^ 31) % 2 ^ 32 - 2 ^ 31

/-- Signed 32-bit range test (the cffi check on `int32_t` assignment). -/
def inI32 (n : Int) : Bool :=
  decide (-(2 ^ 31) ≤ n) && decide (n < 2 ^ 31)

/-- Unsigned 32-bit range test (the cffi check on `uint32_t` assignment). -/
def inU32 (n : Int) : Bool :=
  decide (0 ≤ n) && decide (n < 2 ^ 32)

/-- The libwayland inline `wl_fixed_from_int`: multiply by 256 (32-bit arithmetic). -/
def fixedFromInt (n : Int) : Int :=
  wrap32 (n * 256)

/-- Modelled from the spec: the libwayland inline `wl_fixed_from_double` is not part
of this repository; per the spec the float is "scaled by 256 and rounded to
nearest integer per the standard 24.8 wire convention", and the result is
stored in a 32-bit slot (wrapping out-of-range values). -/
def fixedFromDouble (q : ℚ) : Int :=
  wrap32 ⌊q * 256 + 1 / 2⌋

/-- The libwayland inline `wl_fixed_to_double`: divide the 32-bit raw value
by 256 (exact in float64 for every 32-bit input). -/
def fixedToDouble (n : Int) : ℚ :=
  (n : ℚ) / 256

/-- Encode one caller-supplied value into one raw slot, for every kind
except `n` (`arguments_to_c` handles `n` before consuming a value).
Returns the slot written plus the keep-alive refs appended for it. -/
def encodeArg : ArgSpec → Value → Except EncErr (RawArg × List OwnedRef)
  | ⟨_, .int32⟩, v =>
    match v with
    | .VInt n => if inI32 n then .ok (.iVal n, []) else .error .overflow
    | _ => .error .typeError
  | ⟨_, .uint32⟩, v =>
    match v with
    | .VInt n => if inU32 n then .ok (.uVal n.toNat, []) else .error .overflow
    | _ => .error .typeError
  | ⟨_, .fixed⟩, v =>
    match v with
    | .VInt n =>
      -- `isinstance(arg, int)` branch: `lib.wl_fixed_from_int(arg)`
      if inI32 n then .ok (.fVal (fixedFromInt n), []) else .error .overflow
    | .VFloat q => .ok (.fVal (fixedFromDouble q), [])
    | _ => .error .typeError
  | ⟨_, .fd⟩, v =>
    match v with
    | .VInt n => if inI32 n then .ok (.hVal n, []) else .error .overflow
    | _ => .error .typeError
  | ⟨null, .string⟩, v =>
    match v with
    | .VNone =>
      if null then .ok (.sVal none, []) else .error .nullNotAllowed
    | .VStr s => .ok (.sVal (some s), [.strBuf s])
    | _ => .error .typeError
  | ⟨null, .object⟩, v =>
    match v with
    | .VNone =>
      if null then .ok (.oVal none, []) else .error .nullNotAllowed
    | .VObject o =>
      -- The source casts the raw object pointer with ffi.cast and performs
      -- no interface check.
      .ok (.oVal (some o.ptr), [.objRef o.ptr])
    | _ => .error .typeError
  | ⟨_, .array⟩, v =>
    -- The branch runs `len(arg)` (TypeError on an unsized value) and then
    -- `ffi.new` with the array-of-void type, which cffi rejects with
    -- ValueError: the raise happens before `alloc`/`size` are set, before
    -- the bytes are copied, and before anything reaches the slot or the
    -- refs list, so every value fails here.
    match v with
    | .VBytes _ => .error .valueError
    | .VStr _ => .error .valueError
    | _ => .error .typeError
  | ⟨_, .newId⟩, _ =>
    -- Unreachable: the caller handles `n` without consuming a value.
    .error .typeError

/-- The encoding loop of `arguments_to_c`: for each signature token in
order, an `n` token writes a NULL object slot and consumes no value
(`continue`); every other token consumes the next value via
`next(arg_iter)` (raising `stopIteration` when exhausted) and encodes it.
Values left over after the loop are ignored. -/
def encodeLoop : List ArgSpec → List Value →
    Except EncErr (List RawArg × List OwnedRef)
  | [], _ => .ok ([], [])
  | spec :: rest, vals =>
    if spec.kind = .newId then
      match encodeLoop rest vals with
      | .error e => .error e
      | .ok (slots, refs) => .ok (.oVal none :: slots, refs)
    else
      match vals with
      | [] => .error .stopIteration
      | v :: vs =>
        match encodeArg spec v with
        | .error e => .error e
        | .ok (slot, myRefs) =>
          match encodeLoop rest vs with
          | .error e => .error e
          | .ok (slots, refs) => .ok (slot :: slots, myRefs ++ refs)

/-- Embeds `Message.arguments_to_c`: parse the stored signature and run the
encoding loop.  The stored type table is never consulted. -/
def encodeMsg (m : Message) (vals : List Value) :
    Except EncErr (List RawArg × List OwnedRef) :=
  encodeLoop (parseSignature m.signature) vals

/-- Read the `i` field of a slot. -/
def readI : RawArg → Except DecErr Int
  | .iVal n => .ok n
  | .nullSlot => .ok 0
  | _ => .error .typePun

/-- Read the `u` field of a slot. -/
def readU : RawArg → Except DecErr Nat
  | .uVal n => .ok n
  | .nullSlot => .ok 0
  | _ => .error .typePun

/-- Read the `f` field of a slot. -/
def readF : RawArg → Except DecErr Int
  | .fVal n => .ok n
  | .nullSlot => .ok 0
  | _ => .error .typePun

/-- Read the `h` field of a slot. -/
def readH : RawArg → Except DecErr Int
  | .hVal n => .ok n
  | .nullSlot => .ok 0
  | _ => .error .typePun

/-- Read the `s` field of a slot. -/
def readS : RawArg → Except DecErr (Option String)
  | .sVal s => .ok s
  | .nullSlot => .ok none
  | _ => .error .typePun

/-- Embeds `ffi.string` applied to the NUL-terminated buffer written for
the string `s` (the buffer holds `utf8(s) ++ [0]`): the read stops at the
first NUL byte, so the result is the prefix of `s` before its first NUL
character (UTF-8 produces a zero byte only for U+0000 itself, so
byte-level truncation is character-level truncation). -/
def ffiString (s : String) : String :=
  ⟨s.toList.takeWhile (fun c => c != '\x00')⟩

/-- Decode one raw slot per the dispatch of `c_to_arguments`.  Returns
`some value` when a value is appended to the result list and `none` when
the branch appends nothing (`o`, `n` and `a` are `pass`/TODO in the
source).  For `s`, the source first tests `arg_ptr == ffi.NULL`; but
`arg_ptr = args_ptr[i]` is the i-th union slot of a live array, which is
never NULL, so the test is always false and control always reaches
`ffi.string(arg_ptr.s)`, which raises on a NULL string pointer and
truncates a non-null buffer at its first NUL byte (`ffiString`). -/
def decodeArgAt : ArgSpec → RawArg → Except DecErr (Option Value)
  | ⟨_, .int32⟩, slot =>
    match readI slot with
    | .error e => .error e
    | .ok n => .ok (some (.VInt n))
  | ⟨_, .uint32⟩, slot =>
    match readU slot with
    | .error e => .error e
    | .ok n => .ok (some (.VInt n))
  | ⟨_, .fixed⟩, slot =>
    match readF slot with
    | .error e => .error e
    | .ok n => .ok (some (.VFloat (fixedToDouble n)))
  | ⟨_, .fd⟩, slot =>
    match readH slot with
    | .error e => .error e
    | .ok n => .ok (some (.VInt n))
  | ⟨_, .string⟩, slot =>
    match readS slot with
    | .error e => .error e
    | .ok none => .error .nullPointerRead
    | .ok (some s) => .ok (some (.VStr (ffiString s)))
  | ⟨_, .object⟩, _ => .ok none
  | ⟨_, .newId⟩, _ => .ok none
  | ⟨_, .array⟩, _ => .ok none

/-- The decoding loop of `c_to_arguments`: for the j-th signature token it
reads raw slot `i = j` (`enumerate` over `finditer`), decodes it, and
appends the produced value, if any.  There is no check that the raw array
length matches the signature. -/
def decodeFrom : List ArgSpec → List RawArg → Nat → Except DecErr (List Value)
  | [], _, _ => .ok []
  | spec :: rest, raw, i =>
    match raw[i]? with
    | none => .error .indexOutOfRange
    | some slot =>
      match decodeArgAt spec slot with
      | .error e => .error e
      | .ok v? =>
        match decodeFrom rest raw (i + 1) with
        | .error e => .error e
        | .ok vs =>
          .ok (match v? with
               | some v => v :: vs
               | none => vs)

/-- Embeds `Message.c_to_arguments`: parse the stored signature and run the
decoding loop from index 0. -/
def decodeMsg (m : Message) (raw : List RawArg) : Except DecErr (List Value) :=
  decodeFrom (parseSignature m.signature) raw 0

/-- Python `==` on two values: numeric values compare across the int/float
divide by mathematical value (`5 == 5.0` in Python); all other variants
compare structurally within their own variant. -/
def pyEq : Value → Value → Bool
  | .VInt a, .VInt b => a == b
  | .VInt a, .VFloat q => decide ((a : ℚ) = q)
  | .VFloat q, .VInt a => decide (q = (a : ℚ))
  | .VFloat p, .VFloat q => decide (p = q)
  | .VStr s, .VStr t => s == t
  | .VNone, .VNone => true
  | .VObject a, .VObject b => a == b
  | .VBytes a, .VBytes b => a == b
  | _, _ => false

/-- Python `==` on two value lists: equal length and pairwise `pyEq`. -/
def pyEqList : List Value → List Value → Bool
  | [], [] => true
  | a :: as_, b :: bs => pyEq a b && pyEqList as_ bs
  | _, _ => false

/-- Values accepted by `encodeArg` for a given slot (the combinations on
which the encoder does not raise).  No value is accepted for an `Array`
slot: its branch always raises at the `ffi.new` array-of-void
allocation. -/
def accepts : ArgSpec → Value → Bool
  | ⟨_, .int32⟩, .VInt n => inI32 n
  | ⟨_, .uint32⟩, .VInt n => inU32 n
  | ⟨_, .fixed⟩, .VInt n => inI32 n
  | ⟨_, .fixed⟩, .VFloat _ => true
  | ⟨_, .fd⟩, .VInt n => inI32 n
  | ⟨null, .string⟩, .VNone => null
  | ⟨_, .string⟩, .VStr _ => true
  | ⟨null, .object⟩, .VNone => null
  | ⟨_, .object⟩, .VObject _ => true
  | _, _ => false

/-- Lifts `accepts` to aligned lists (equal length, pairwise accepted). -/
def acceptsAll : List ArgSpec → List Value → Bool
  | [], [] => true
  | sp :: sps, v :: vs => accepts sp v && acceptsAll sps vs
  | _, _ => false

/-- The signature tokens that consume a caller-supplied value during
encoding: every token except `n` (new id). -/
def consumable (specs : List ArgSpec) : List ArgSpec :=
  specs.filter (fun sp => sp.kind != .newId)

/-- Slot/value combinations for which encode-then-decode provably
reproduces the value (used to state the amended round-trip):
in-range integers for `i`/`u`/`h`; for `f`, integers in the representable
24.8 range or floats lying exactly on the 1/256 grid with in-range scaled
value; for `s`, non-null strings containing no NUL character (decode
reads the buffer back with `ffi.string`, which truncates at the first
NUL byte).  No `o`, `n` or `a` combination qualifies (decode drops
`o`/`n` values and the `a` encode branch raises), and `None` in a
nullable `s` slot does not qualify (its decode raises instead of
returning an absent value). -/
def goodVal : ArgSpec → Value → Bool
  | ⟨_, .int32⟩, .VInt n => inI32 n
  | ⟨_, .uint32⟩, .VInt n => inU32 n
  | ⟨_, .fd⟩, .VInt n => inI32 n
  | ⟨_, .fixed⟩, .VInt n => decide (-(2 ^ 23) ≤ n) && decide (n < 2 ^ 23)
  | ⟨_, .fixed⟩, .VFloat q =>
    decide ((q * 256).den = 1) && inI32 (q * 256).num
  | ⟨_, .string⟩, .VStr s => s.toList.all (fun c => c != '\x00')
  | _, _ => false

/-- Lifts `goodVal` to aligned lists. -/
def goodVals : List ArgSpec → List Value → Bool
  | [], [] => true
  | sp :: sps, v :: vs => goodVal sp v && goodVals sps vs
  | _, _ => false

/-! ### Helper lemmas -/

theorem inI32_iff {n : Int} : inI32 n = true ↔ -(2 ^ 31) ≤ n ∧ n < 2 ^ 31 := by
  simp [inI32]

theorem inU32_iff {n : Int} : inU32 n = true ↔ 0 ≤ n ∧ n < 2 ^ 32 := by
  simp [inU32]

theorem wrap32_eq_self {n : Int} (h : inI32 n = true) : wrap32 n = n := by
  rw [inI32_iff] at h
  unfold wrap32
  rw [Int.emod_eq_of_lt (by omega) (by omega)]
  omega

theorem floor_add_half (m : Int) : ⌊(m : ℚ) + 1 / 2⌋ = m := by
  rw [Int.floor_int_add]
  norm_num

theorem takeWhile_of_all {α : Type} {p : α → Bool} :
    ∀ {l : List α}, l.all p = true → l.takeWhile p = l := by
  intro l
  induction l with
  | nil => intro _; rfl
  | cons c t ih =>
    intro h
    rw [List.all_cons, Bool.and_eq_true] at h
    simp [List.takeWhile_cons, h.1, ih h.2]

theorem ffiString_of_all {s : String}
    (h : s.toList.all (fun c => c != '\x00') = true) : ffiString s = s := by
  unfold ffiString
  rw [takeWhile_of_all h]
  rfl

theorem decodeFrom_shift (specs : List ArgSpec) :
    ∀ (i : Nat) (slot : RawArg) (slots : List RawArg),
      decodeFrom specs (slot :: slots) (i + 1) = decodeFrom specs slots i := by
  induction specs with
  | nil => intro i slot slots; rfl
  | cons sp rest ih =>
    intro i slot slots
    simp only [decodeFrom, List.getElem?_cons_succ, ih (i + 1)]

/-! ### Claim theorems -/

/-- C3: refuted on the code (code bug, marked TODO in the source): for the
signature `"ona"` and a fully populated three-slot raw array, decode
returns an empty value list -- it silently omits the values of the
`Object`, `NewId` and `Array` positions instead of returning one decoded
value per signature position or a typed error. -/
theorem c3_decode_silently_drops_object_newid_array :
    decodeMsg (Message.make "make_import" "ona" [none, none, none])
      [.oVal (some 7), .oVal none, .nullSlot] = .ok [] := rfl

/-- C4, counterexample: for the one-argument signature `"i"` and a raw
array of two slots (slot count 2 differs from the argument
count 1 of the signature), decode does not return a `SignatureMismatch` error -- no such
check exists -- but successfully produces the value of the first slot. -/
theorem c4_counterexample :
    decodeMsg (Message.make "int_event" "i" [none]) [.iVal 5, .iVal 6]
      = .ok [.VInt 5] := rfl

/-- C4, amended: decode performs no slot-count check; it reads one raw
slot per signature argument position, by position, so any raw slots past
the argument count of the signature are ignored and decoding behaves exactly
as on the truncated array. -/
theorem c4_amended_extra_slots_ignored (specs : List ArgSpec)
    (raw extra : List RawArg) :
    ∀ i : Nat, i + specs.length ≤ raw.length →
      decodeFrom specs (raw ++ extra) i = decodeFrom specs raw i := by
  induction specs with
  | nil => intro i _; rfl
  | cons sp rest ih =>
    intro i h
    have hi : i < raw.length := by
      simp [List.length_cons] at h; omega
    simp only [decodeFrom, List.getElem?_append_left hi]
    have hrest : (i + 1) + rest.length ≤ raw.length := by
      simp [List.length_cons] at h; omega
    rw [ih (i + 1) hrest]

/-- C4, witness for the amended theorem at a concrete input. -/
theorem c4_amended_witness :
    decodeFrom [⟨false, .int32⟩] ([.iVal 5] ++ [.iVal 6]) 0
      = decodeFrom [⟨false, .int32⟩] [.iVal 5] 0 :=
  c4_amended_extra_slots_ignored [⟨false, .int32⟩] [.iVal 5] [.iVal 6] 0
    (by decide)

/-- C5: the encode half of the claim holds (`None` in a non-nullable
`s`/`o` slot raises the null error, `None` in a nullable slot writes a
NULL raw slot), but the decode half is a code bug: decoding the null
nullable string slot produced by encode raises an error from reading the
NULL string pointer (the null test in the source compares the union slot,
which is never NULL, instead of the string pointer), so the slot never
decodes to an absent value. -/
theorem c5_null_handling :
    encodeMsg (Message.make "string_event" "s" [none]) [.VNone]
        = .error .nullNotAllowed
    ∧ encodeMsg (Message.make "allow_null_event" "?s" [none]) [.VNone]
        = .ok ([.sVal none], [])
    ∧ encodeMsg (Message.make "object_event" "o" [none]) [.VNone]
        = .error .nullNotAllowed
    ∧ encodeMsg (Message.make "null_object_event" "?o" [none]) [.VNone]
        = .ok ([.oVal none], [])
    ∧ decodeMsg (Message.make "allow_null_event" "?s" [none]) [.sVal none]
        = .error .nullPointerRead :=
  ⟨rfl, rfl, rfl, rfl, rfl⟩

/-- C6, counterexample: for an `Object` slot whose type-table entry names
the interface `wl_surface`, encoding an object whose actual interface is
`wl_output` succeeds and writes the raw pointer of the object -- no
`TypeMismatch` error is raised (no interface check exists in the code). -/
theorem c6_counterexample :
    encodeMsg (Message.make "typed_obj_event" "o" [some "wl_surface"])
      [.VObject ⟨5, some "wl_output"⟩] = .ok ([.oVal (some 5)], [.objRef 5]) := rfl

/-- C6, amended: encode never consults the type table for an `Object`
slot: for every expected interface entry and every supplied object, the
raw identity pointer of the object is written into the slot (and kept alive in
the refs list), regardless of whether the actual interface of the object
matches the entry. -/
theorem c6_amended_no_type_check (fn : String) (expected : Option String)
    (p : Nat) (actual : Option String) :
    encodeMsg (Message.make fn "o" [expected]) [.VObject ⟨p, actual⟩]
      = .ok ([.oVal (some p)], [.objRef p]) := rfl

/-- C7: refuted on the code (code bug): encoding `b"\x01\x02"` into an
`Array` slot never copies the bytes and never records anything in the
slot or the owned list -- the branch raises `ValueError` at the `ffi.new`
call with the array-of-void type (cffi cannot build an array of items of
unknown size) before `alloc`/`size` are set, before the copy, and before
the `refs` appends; and even past that point the branch contains no
statement linking the data buffer into the descriptor or storing the
descriptor into `args_ptr[i]`. -/
theorem c7_array_encode_raises :
    encodeMsg (Message.make "array_event" "a" [none]) [.VBytes [1, 2]]
      = .error .valueError := rfl

/-- C2, counterexample: for the signature `"n"` with type-table entry
`None`, encode accepts zero caller-supplied values (the claim requires
three values there and an `ArgCountMismatch` error for any other count);
and for the signature `"i"`, encode accepts two caller-supplied values
(one too many) without raising anything -- surplus values are silently
ignored. -/
theorem c2_counterexample :
    encodeMsg (Message.make "create_id" "n" [none]) [] = .ok ([.oVal none], [])
    ∧ encodeMsg (Message.make "int_event" "i" [none]) [.VInt 1, .VInt 2]
        = .ok ([.iVal 1], []) :=
  ⟨rfl, rfl⟩

theorem encodeArg_ok_of_accepts :
    ∀ (sp : ArgSpec) (v : Value), accepts sp v = true →
      ∃ out, encodeArg sp v = .ok out := by
  rintro ⟨null, kind⟩ v h
  cases kind <;> cases v <;> simp_all [accepts, encodeArg]

/-- C2, amended: `arguments_to_c` never reads the stored type table, so
two messages with the same signature encode identically whatever their
type tables; a `NewId` slot consumes zero caller-supplied values
(regardless of the type-table entry) and every other slot consumes
exactly one, in signature order; surplus values beyond that consumption
count are silently ignored (no `ArgCountMismatch` exists), and when the
values run out before the consumption count is reached the uncaught
iterator exhaustion (`StopIteration`) is raised instead.  An `Array`
slot still consumes its one value and then always raises (its `ffi.new`
array-of-void allocation is rejected by cffi), so `acceptsAll` admits no
value for it and a signature containing `a` never encodes successfully;
the final conjunct exhibits both the consume-then-raise and the
exhaustion order on an `a` slot. -/
theorem c2_amended_consumption :
    (∀ (n1 n2 sig : String) (t1 t2 : List (Option String)) (vals : List Value),
       encodeMsg (Message.make n1 sig t1) vals
         = encodeMsg (Message.make n2 sig t2) vals)
    ∧ (∀ (specs : List ArgSpec) (vals extra : List Value),
         acceptsAll (consumable specs) vals = true →
         ∃ res, encodeLoop specs (vals ++ extra) = .ok res)
    ∧ (∀ (specs : List ArgSpec) (vals : List Value),
         vals.length < (consumable specs).length →
         acceptsAll ((consumable specs).take vals.length) vals = true →
         encodeLoop specs vals = .error .stopIteration)
    ∧ (∀ (null : Bool) (rest : List ArgSpec) (bs : List Nat)
         (vals : List Value),
         encodeLoop (⟨null, .array⟩ :: rest) (.VBytes bs :: vals)
             = .error .valueError
         ∧ encodeLoop (⟨null, .array⟩ :: rest) [] = .error .stopIteration) := by
  refine ⟨fun _ _ _ _ _ _ => rfl, ?_, ?_, fun _ _ _ _ => ⟨rfl, rfl⟩⟩
  · intro specs
    induction specs with
    | nil => intro vals extra _; exact ⟨([], []), rfl⟩
    | cons sp rest ih =>
      intro vals extra h
      by_cases hk : sp.kind = ArgKind.newId
      · rw [consumable, List.filter_cons_of_neg (by simp [hk])] at h
        obtain ⟨⟨slots, refs⟩, hres⟩ := ih vals extra h
        exact ⟨(.oVal none :: slots, refs), by simp [encodeLoop, hk, hres]⟩
      · rw [consumable, List.filter_cons_of_pos (by simp [hk])] at h
        match vals with
        | [] => simp [acceptsAll] at h
        | v :: vs =>
          rw [acceptsAll, Bool.and_eq_true] at h
          obtain ⟨⟨slot, refs0⟩, henc⟩ := encodeArg_ok_of_accepts sp v h.1
          obtain ⟨⟨slots, refs⟩, hres⟩ := ih vs extra h.2
          exact ⟨(slot :: slots, refs0 ++ refs),
                 by simp [encodeLoop, hk, henc, hres]⟩
  · intro specs
    induction specs with
    | nil => intro vals hlen _; simp [consumable] at hlen
    | cons sp rest ih =>
      intro vals hlen hacc
      by_cases hk : sp.kind = ArgKind.newId
      · rw [consumable, List.filter_cons_of_neg (by simp [hk])] at hlen hacc
        simp [encodeLoop, hk, ih vals hlen hacc]
      · rw [consumable, List.filter_cons_of_pos (by simp [hk])] at hlen hacc
        match vals with
        | [] => simp [encodeLoop, hk]
        | v :: vs =>
          rw [List.length_cons, List.length_cons, Nat.add_lt_add_iff_right]
            at hlen
          rw [List.length_cons, List.take_succ_cons, acceptsAll,
            Bool.and_eq_true] at hacc
          obtain ⟨⟨slot, refs0⟩, henc⟩ := encodeArg_ok_of_accepts sp v hacc.1
          simp [encodeLoop, hk, henc, ih vs hlen hacc.2]

/-- C2, witness for the amended theorem at concrete inputs: a `NewId`
slot followed by an `Int32` slot encodes with a single supplied value
plus one ignored surplus value; two `Int32` slots with a single supplied
value raise the iterator exhaustion error. -/
theorem c2_amended_witness :
    (∃ res, encodeLoop [⟨false, .newId⟩, ⟨false, .int32⟩]
       ([.VInt 3] ++ [.VInt 9]) = .ok res)
    ∧ encodeLoop [⟨false, .int32⟩, ⟨false, .int32⟩] [.VInt 3]
        = .error .stopIteration :=
  ⟨c2_amended_consumption.2.1 [⟨false, .newId⟩, ⟨false, .int32⟩]
     [.VInt 3] [.VInt 9] (by decide),
   c2_amended_consumption.2.2.1 [⟨false, .int32⟩, ⟨false, .int32⟩]
     [.VInt 3] (by decide) (by decide)⟩

theorem kindChar_of_kindOfChar {c : Char} {k : ArgKind}
    (h : kindOfChar c = some k) : kindChar k = c := by
  unfold kindOfChar at h
  split_ifs at h
  all_goals first
    | exact Option.noConfusion h
    | (injection h with h; subst h; subst_vars; rfl)

theorem scan_kinds (l : List Char) :
    (scanArgs l).map (fun a => kindChar a.kind)
      = l.filter (fun c => (kindOfChar c).isSome) := by
  induction l using scanArgs.induct with
  | case1 => simp [scanArgs]
  | case2 c k h => simp [scanArgs, h, kindChar_of_kindOfChar h]
  | case3 c h => simp [scanArgs, h]
  | case4 c d rest k h ih => simp [scanArgs, h, kindChar_of_kindOfChar h, ih]
  | case5 d rest k h hq ih =>
    simp [scanArgs, h, hq, kindChar_of_kindOfChar h, ih]
  | case6 d rest h hq ih => simp [scanArgs, h, hq, ih]
  | case7 c d rest h hne ih => simp [scanArgs, h, hne, ih]

theorem digit_not_kind {c : Char} (h : c.isDigit = true) :
    kindOfChar c = none ∧ c ≠ '?' := by
  refine ⟨?_, ?_⟩
  · unfold kindOfChar
    split_ifs <;> subst_vars
    all_goals first | rfl | exact absurd h (by decide)
  · intro hc
    subst hc
    exact absurd h (by decide)

/-- C9: confirmed.  Signature scanning emits exactly one descriptor per
kind letter, in left-to-right order (the kind letters of the produced
descriptors are precisely the kind letters of the string, in order); a
kind letter prefixed by `?` yields a nullable descriptor and a bare kind
letter a non-nullable one; a digit character is skipped and never yields
a descriptor -- in particular the bare version signature `"2"` parses to
zero arguments. -/
theorem c9_signature_scan :
    (∀ s : String, (parseSignature s).map (fun a => kindChar a.kind)
        = s.toList.filter (fun c => (kindOfChar c).isSome))
    ∧ (∀ (c : Char) (k : ArgKind) (rest : List Char), kindOfChar c = some k →
        scanArgs ('?' :: c :: rest) = ⟨true, k⟩ :: scanArgs rest
        ∧ scanArgs (c :: rest) = ⟨false, k⟩ :: scanArgs rest)
    ∧ (∀ (c : Char) (rest : List Char), c.isDigit = true →
        scanArgs (c :: rest) = scanArgs rest)
    ∧ parseSignature "2" = [] := by
  refine ⟨fun s => scan_kinds s.toList, ?_, ?_, rfl⟩
  · intro c k rest h
    have hq : kindOfChar '?' = none := rfl
    refine ⟨by simp [scanArgs, hq, h], ?_⟩
    cases rest with
    | nil => simp [scanArgs, h]
    | cons d rest2 => simp [scanArgs, h]
  · intro c rest h
    obtain ⟨h1, h2⟩ := digit_not_kind h
    cases rest with
    | nil => simp [scanArgs, h1]
    | cons d rest2 => simp [scanArgs, h1, h2]

/-- C9, witness: `"?u"` scans to one nullable `u` descriptor, and a
leading digit before `"i"` is skipped. -/
theorem c9_witness :
    scanArgs ['?', 'u'] = [⟨true, .uint32⟩]
    ∧ scanArgs ('3' :: ['i']) = scanArgs ['i'] :=
  ⟨(c9_signature_scan.2.1 'u' .uint32 [] rfl).1,
   c9_signature_scan.2.2.1 '3' ['i'] rfl⟩

theorem head?_dropWhile_false {α : Type} {p : α → Bool} {l : List α} {a : α}
    (h : (l.dropWhile p).head? = some a) : p a = false := by
  induction l with
  | nil => simp [List.dropWhile] at h
  | cons c t ih =>
    rw [List.dropWhile_cons] at h
    by_cases hp : p c = true
    · rw [if_pos hp] at h
      exact ih h
    · rw [if_neg hp] at h
      simp only [List.head?_cons, Option.some.injEq] at h
      subst h
      exact Bool.eq_false_iff.mpr hp

theorem getLast?_dropWhile {α : Type} (p : α → Bool) (l : List α) :
    l.dropWhile p = [] ∨ (l.dropWhile p).getLast? = l.getLast? := by
  induction l with
  | nil => exact .inl rfl
  | cons c t ih =>
    by_cases hp : p c = true
    · by_cases hdt : t.dropWhile p = []
      · exact .inl (by simp [List.dropWhile_cons, hp, hdt])
      · right
        have h : (t.dropWhile p).getLast? = t.getLast? := by
          rcases ih with h | h
          · exact absurd h hdt
          · exact h
        have ht : t ≠ [] := by
          intro h0
          rw [h0] at hdt
          exact hdt rfl
        rw [List.dropWhile_cons, if_pos hp, h]
        cases t with
        | nil => exact absurd rfl ht
        | cons d t2 => exact List.getLast?_cons_cons.symm
    · right
      rw [List.dropWhile_cons, if_neg hp]

/-- C10: confirmed.  The stored public name is the function name with all
leading and trailing underscores removed: the original name is some run
of underscores, then the stored name, then another run of underscores,
and the stored name neither begins nor ends with an underscore; the
signature string and type list are stored unchanged; in particular a
wrapper named `_func_` registers under the bare name `func`. -/
theorem c10_name_strips_underscores (fn sig : String)
    (ts : List (Option String)) :
    (∃ a b, fn.toList
        = List.replicate a '_' ++ (Message.make fn sig ts).name.toList
          ++ List.replicate b '_')
    ∧ (∀ c, (Message.make fn sig ts).name.toList.head? = some c → c ≠ '_')
    ∧ (∀ c, (Message.make fn sig ts).name.toList.getLast? = some c → c ≠ '_')
    ∧ (Message.make fn sig ts).signature = sig
    ∧ (Message.make fn sig ts).types = ts
    ∧ (Message.make "_func_" sig ts).name = "func" := by
  have hname : (Message.make fn sig ts).name.toList
      = ((fn.toList.dropWhile (· = '_')).reverse.dropWhile (· = '_')).reverse :=
    rfl
  refine ⟨?_, ?_, ?_, rfl, rfl, rfl⟩
  · refine ⟨(fn.toList.takeWhile (· = '_')).length,
      (((fn.toList.dropWhile (· = '_')).reverse.takeWhile (· = '_'))).length, ?_⟩
    rw [hname]
    have h2 : fn.toList.takeWhile (· = '_')
        = List.replicate (fn.toList.takeWhile (· = '_')).length '_' :=
      List.eq_replicate_of_mem
        (fun b hb => by simpa using List.mem_takeWhile_imp hb)
    have h5 : ((fn.toList.dropWhile (· = '_')).reverse.takeWhile (· = '_'))
        = List.replicate
            ((fn.toList.dropWhile (· = '_')).reverse.takeWhile (· = '_')).length
            '_' :=
      List.eq_replicate_of_mem
        (fun b hb => by simpa using List.mem_takeWhile_imp hb)
    conv_lhs => rw [← List.takeWhile_append_dropWhile (· = '_') fn.toList]
    conv_lhs =>
      rw [← (fn.toList.dropWhile (· = '_')).reverse_reverse,
        ← List.takeWhile_append_dropWhile (· = '_')
            (fn.toList.dropWhile (· = '_')).reverse,
        List.reverse_append]
    rw [← h2, ← List.reverse_replicate, ← h5, List.append_assoc]
  · intro c hc
    rw [hname, List.head?_reverse] at hc
    rcases getLast?_dropWhile (· = '_') (fn.toList.dropWhile (· = '_')).reverse
      with h | h
    · rw [h] at hc
      exact Option.noConfusion hc
    · rw [h, List.getLast?_reverse] at hc
      have := head?_dropWhile_false hc
      simpa using this
  · intro c hc
    rw [hname, List.getLast?_reverse] at hc
    have := head?_dropWhile_false hc
    simpa using this

/-- C10, witness at the concrete wrapper name `_func_`: its stored name
decomposes as underscores around `func`, and the first character of the
stored name is not an underscore. -/
theorem c10_witness :
    (∃ a b, ("_func_" : String).toList
        = List.replicate a '_'
          ++ (Message.make "_func_" "i" [none]).name.toList
          ++ List.replicate b '_')
    ∧ ('f' : Char) ≠ '_' :=
  ⟨(c10_name_strips_underscores "_func_" "i" [none]).1,
   (c10_name_strips_underscores "_func_" "i" [none]).2.1 'f' rfl⟩

theorem rt_step (null : Bool) (kind : ArgKind) (v : Value)
    (hv : goodVal ⟨null, kind⟩ v = true) :
    ∃ slot r v2, encodeArg ⟨null, kind⟩ v = .ok (slot, r)
      ∧ decodeArgAt ⟨null, kind⟩ slot = .ok (some v2)
      ∧ pyEq v2 v = true ∧ kind ≠ ArgKind.newId := by
  cases kind <;> cases v <;> simp [goodVal] at hv
  case int32.VInt n =>
    exact ⟨.iVal n, [], .VInt n, by simp [encodeArg, hv], rfl,
      by simp [pyEq], by simp⟩
  case uint32.VInt n =>
    refine ⟨.uVal n.toNat, [], .VInt n.toNat, by simp [encodeArg, hv], rfl,
      ?_, by simp⟩
    simp [pyEq, Int.toNat_of_nonneg (inU32_iff.mp hv).1]
  case fd.VInt n =>
    exact ⟨.hVal n, [], .VInt n, by simp [encodeArg, hv], rfl,
      by simp [pyEq], by simp⟩
  case fixed.VInt n =>
    have h32 : inI32 n = true :=
      inI32_iff.mpr (by constructor <;> [linarith; linarith])
    have hm : inI32 (n * 256) = true := by
      rw [inI32_iff]
      constructor <;> nlinarith [hv.1, hv.2]
    refine ⟨.fVal (n * 256), [], .VFloat (fixedToDouble (n * 256)), ?_, rfl,
      ?_, by simp⟩
    · simp [encodeArg, h32, fixedFromInt, wrap32_eq_self hm]
    · simp only [pyEq, fixedToDouble, decide_eq_true_eq]
      push_cast
      field_simp
  case fixed.VFloat q =>
    have hm : ((q * 256).num : ℚ) = q * 256 := (Rat.den_eq_one_iff _).mp hv.1
    refine ⟨.fVal (q * 256).num, [], .VFloat (fixedToDouble (q * 256).num),
      ?_, rfl, ?_, by simp⟩
    · have hq : fixedFromDouble q = (q * 256).num := by
        rw [fixedFromDouble,
          show q * 256 + 1 / 2 = ((q * 256).num : ℚ) + 1 / 2 by rw [hm],
          floor_add_half, wrap32_eq_self hv.2]
      simp [encodeArg, hq]
    · simp only [pyEq, fixedToDouble, decide_eq_true_eq, hm]
      field_simp
  case string.VStr s =>
    have hb : s.toList.all (fun c => c != '\x00') = true := by
      simpa using hv
    have hs : ffiString s = s := ffiString_of_all hb
    exact ⟨.sVal (some s), [.strBuf s], .VStr (ffiString s), rfl, rfl,
      by simp [pyEq, hs], by simp⟩

theorem roundTripLoop (specs : List ArgSpec) :
    ∀ vals : List Value, goodVals specs vals = true →
    ∃ slots refs out, encodeLoop specs vals = .ok (slots, refs)
      ∧ decodeFrom specs slots 0 = .ok out
      ∧ pyEqList out vals = true := by
  induction specs with
  | nil =>
    intro vals h
    match vals with
    | [] => exact ⟨[], [], [], rfl, rfl, rfl⟩
    | v :: vs => simp [goodVals] at h
  | cons sp rest ih =>
    intro vals h
    match vals with
    | [] => simp [goodVals] at h
    | v :: vs =>
      rw [goodVals, Bool.and_eq_true] at h
      obtain ⟨slots, refs, out, henc, hdec, heq⟩ := ih vs h.2
      obtain ⟨null, kind⟩ := sp
      obtain ⟨slot, r, v2, hse, hsd, hsq, hsn⟩ := rt_step null kind v h.1
      refine ⟨slot :: slots, r ++ refs, v2 :: out, ?_, ?_, ?_⟩
      · simp [encodeLoop, hsn, hse, henc]
      · simp [decodeFrom, hsd, decodeFrom_shift, hdec]
      · simp [pyEqList, hsq, heq]

/-- C1, counterexample: the signature `"o"` contains no `NewId` and no
`Array` slot, and the single supplied value is a non-null object
satisfying the slot constraints, yet decoding the raw array produced by
encoding returns the empty list, not the original one-value sequence
(the `Object` branch of the decoder is an unimplemented `pass`). -/
theorem c1_counterexample :
    encodeMsg (Message.make "make_import" "o" [none]) [.VObject ⟨1, none⟩]
      = .ok ([.oVal (some 1)], [.objRef 1])
    ∧ decodeMsg (Message.make "make_import" "o" [none]) [.oVal (some 1)]
        = .ok []
    ∧ pyEqList [] [.VObject ⟨1, none⟩] = false :=
  ⟨rfl, rfl, rfl⟩

/-- C1, amended: the decode-encode round trip holds for signatures whose
slots are `i`, `u`, `f`, `h` or `s` only, with values satisfying
`goodVals`: in-range integers for `i`/`u`/`h`; for `f` either integers in
the representable 24.8 range or floats lying exactly on the 1/256 grid
with scaled value in 32-bit range; for `s` non-null strings free of NUL
characters -- the decoded sequence then compares equal to the original
under Python `==` (an integer encoded into an `f` slot decodes to the
Python-equal float).  `Object` slots, allowed by the original claim, are
excluded: decode drops them (see the counterexample); `None` in a
nullable slot is excluded because its decode raises instead of returning
an absent value; and strings with an embedded NUL are excluded because
`ffi.string` truncates the decoded buffer at its first NUL byte. -/
theorem c1_amended_round_trip (m : Message) (vals : List Value)
    (h : goodVals (parseSignature m.signature) vals = true) :
    ∃ slots refs out, encodeMsg m vals = .ok (slots, refs)
      ∧ decodeMsg m slots = .ok out ∧ pyEqList out vals = true :=
  roundTripLoop _ vals h

/-- C1, witness: round trip through the signature `"iufhs"` at concrete
values. -/
theorem c1_witness :
    ∃ slots refs out,
      encodeMsg
          (Message.make "send_event" "iufhs" [none, none, none, none, none])
          [.VInt (-3), .VInt 7, .VInt 2, .VInt 4, .VStr "hi"]
        = .ok (slots, refs)
      ∧ decodeMsg
          (Message.make "send_event" "iufhs" [none, none, none, none, none])
          slots = .ok out
      ∧ pyEqList out [.VInt (-3), .VInt 7, .VInt 2, .VInt 4, .VStr "hi"]
          = true :=
  c1_amended_round_trip _ _ (by decide)

/-- C8, counterexample: the float input `2 ^ 24` (a float64 value) is not
reproduced to within 1/256: its scaled value `2 ^ 32` does not fit the
32-bit fixed-point slot, the stored raw value wraps to `0`, and decode
returns `0`, which is farther than 1/256 from `2 ^ 24`.  (Whatever the
overflow behaviour, no value of a 32-bit 24.8 slot can decode to within
1/256 of `2 ^ 24`.) -/
theorem c8_counterexample :
    encodeArg ⟨false, .fixed⟩ (.VFloat (2 ^ 24)) = .ok (.fVal 0, [])
    ∧ decodeArgAt ⟨false, .fixed⟩ (.fVal 0) = .ok (some (.VFloat 0))
    ∧ ¬ (|(0 : ℚ) - 2 ^ 24| ≤ 1 / 256) := by
  refine ⟨?_, ?_, by norm_num⟩
  · show Except.ok (RawArg.fVal (fixedFromDouble (2 ^ 24)), ([] : List OwnedRef))
      = _
    norm_num [fixedFromDouble, wrap32]
  · have h0 : fixedToDouble 0 = 0 := by norm_num [fixedToDouble]
    simp [decodeArgAt, readF, h0]

/-- C8, amended: for a `Fixed` slot, encode accepts an integer (scaled by
256 with no rounding loss) or a float (scaled by 256 and rounded to
nearest), and decode returns raw/256; the round trip reproduces a float
`x` to within 1/256 whenever its rounded scaled value `⌊256x + 1/2⌋`
fits the signed 32-bit slot (rather than for every float64 input), and
reproduces exactly every integer in the representable 24.8 range
`[-2^23, 2^23)`. -/
theorem c8_amended_fixed_precision :
    (∀ q : ℚ, inI32 ⌊q * 256 + 1 / 2⌋ = true →
      ∃ v : ℚ, encodeArg ⟨false, .fixed⟩ (.VFloat q)
          = .ok (.fVal ⌊q * 256 + 1 / 2⌋, [])
        ∧ decodeArgAt ⟨false, .fixed⟩ (.fVal ⌊q * 256 + 1 / 2⌋)
            = .ok (some (.VFloat v))
        ∧ |v - q| ≤ 1 / 256)
    ∧ (∀ n : Int, -(2 ^ 23) ≤ n → n < 2 ^ 23 →
        encodeArg ⟨false, .fixed⟩ (.VInt n) = .ok (.fVal (n * 256), [])
        ∧ decodeArgAt ⟨false, .fixed⟩ (.fVal (n * 256))
            = .ok (some (.VFloat (n : ℚ)))) := by
  constructor
  · intro q h
    refine ⟨fixedToDouble ⌊q * 256 + 1 / 2⌋, ?_, rfl, ?_⟩
    · show Except.ok (RawArg.fVal (fixedFromDouble q), ([] : List OwnedRef))
          = _
      rw [fixedFromDouble, wrap32_eq_self h]
    · have h1 : ((⌊q * 256 + 1 / 2⌋ : ℤ) : ℚ) ≤ q * 256 + 1 / 2 :=
        Int.floor_le _
      have h2 : q * 256 + 1 / 2 < ((⌊q * 256 + 1 / 2⌋ : ℤ) : ℚ) + 1 :=
        Int.lt_floor_add_one _
      rw [fixedToDouble, abs_le]
      constructor <;> [linarith; linarith]
  · intro n hl hr
    have h32 : inI32 n = true :=
      inI32_iff.mpr (by constructor <;> [linarith; linarith])
    have hm : inI32 (n * 256) = true := by
      rw [inI32_iff]
      constructor <;> nlinarith
    constructor
    · simp [encodeArg, h32, fixedFromInt, wrap32_eq_self hm]
    · have hd : fixedToDouble (n * 256) = (n : ℚ) := by
        rw [fixedToDouble]
        push_cast
        field_simp
      simp [decodeArgAt, readF, hd]

/-- C8, witness: the float `1/2` rounds to raw `128` and decodes to
within 1/256 of itself; the integer `5` round-trips exactly. -/
theorem c8_witness :
    (∃ v : ℚ, encodeArg ⟨false, .fixed⟩ (.VFloat (1 / 2))
        = .ok (.fVal ⌊(1 / 2 : ℚ) * 256 + 1 / 2⌋, [])
      ∧ decodeArgAt ⟨false, .fixed⟩ (.fVal ⌊(1 / 2 : ℚ) * 256 + 1 / 2⌋)
          = .ok (some (.VFloat v))
      ∧ |v - 1 / 2| ≤ 1 / 256)
    ∧ encodeArg ⟨false, .fixed⟩ (.VInt 5) = .ok (.fVal (5 * 256), [])
    ∧ decodeArgAt ⟨false, .fixed⟩ (.fVal (5 * 256))
        = .ok (some (.VFloat (5 : ℚ))) :=
  ⟨c8_amended_fixed_precision.1 (1 / 2)
     (by rw [show ((1 / 2 : ℚ) * 256 + 1 / 2) = ((128 : ℤ) : ℚ) + 1 / 2
           by norm_num, floor_add_half]; decide),
   (c8_amended_fixed_precision.2 5 (by norm_num) (by norm_num)).1,
   (c8_amended_fixed_precision.2 5 (by norm_num) (by norm_num)).2⟩

end PyWayland
